import Mathlib

/-!
Verification of the analytics engine of a personal daily-task tracker.

The engine operates on a snapshot of per-day records.  Calendar dates
(strings of the form YYYY-MM-DD in the source, all interpreted in one
fixed reference timezone) are modelled by their proleptic-Gregorian
rata-die day numbers, so that moving the cursor back one calendar day
is subtraction by one and two dates are consecutive exactly when their
day numbers differ by one.  Points are modelled as integers (the source
stores a Number), fallible list indexing returns an Option, and the
ambient environment (wall clock, randomness source) is passed
explicitly where the source reads it implicitly.
-/

/-- True exactly for Gregorian leap years. -/
def isLeapYear (y : Nat) : Bool :=
  (y % 4 == 0 && y % 100 != 0) || (y % 400 == 0)

/-- Number of days of month m (1-12) of year y. -/
def daysInMonth (y m : Nat) : Nat :=
  if m = 2 then (if isLeapYear y then 29 else 28)
  else if m = 4 ∨ m = 6 ∨ m = 9 ∨ m = 11 then 30
  else 31

/-- Days of year y that elapse strictly before month m begins. -/
def daysBeforeMonth (y m : Nat) : Nat :=
  ((List.range (m - 1)).map (fun i => daysInMonth y (i + 1))).sum

/-- Rata-die day number of the calendar date y-m-d (0001-01-01 is day 1).
Used to interpret the concrete YYYY-MM-DD date strings appearing in the
specification examples. -/
def toDayNumber (y m d : Nat) : Nat :=
  365 * (y - 1) + (y - 1) / 4 - (y - 1) / 100 + (y - 1) / 400 + daysBeforeMonth y m + d

/-- One per-day record, mirroring the DaySchema of the source: a date
(day number of the YYYY-MM-DD string), the ordered list of completed
task names, the stored points and an optional free-text note. -/
structure DayRecord where
  date : Nat
  completedTasks : List String
  points : Int
  note : String

/-- Loop of getCurrentStreak: starting from the cursor, count how many
consecutive day numbers (cursor, cursor-1, ...) occur in the list of
record dates, stopping at the first gap.  The source walks a JS Date
cursor backwards one calendar day at a time; day numbers make that
cursor a natural number. -/
def streakFrom (s : List Nat) : Nat → Nat
  | 0 => if 0 ∈ s then 1 else 0
  | c + 1 => if c + 1 ∈ s then streakFrom s c + 1 else 0

/-- getCurrentStreak from the source: build the set of record dates and
walk a cursor backwards from today while the cursor's date is present.
The source reads today from the clock; here the clock value is the
explicit second argument. -/
def getCurrentStreak (days : List DayRecord) (today : Nat) : Nat :=
  streakFrom (days.map (·.date)) today

/-- Loop body of getLongestStreak: prev is the previous sorted date,
current the running streak length, longest the best seen so far.  The
source compares adjacent sorted dates by (sorted i - sorted i-1) in
days, so the guard is the integer difference being exactly 1. -/
def lsLoop : Nat → Nat → Nat → List Nat → Nat
  | _, _, longest, [] => longest
  | prev, current, longest, x :: rest =>
    if (x : Int) - (prev : Int) = 1 then
      lsLoop x (current + 1) (max longest (current + 1)) rest
    else
      lsLoop x 1 longest rest

/-- Dispatch of getLongestStreak on the sorted date list: empty input
returns 0, otherwise the walk starts after the first date with both
counters at 1. -/
def lsRun : List Nat → Nat
  | [] => 0
  | h :: t => lsLoop h 1 1 t

/-- getLongestStreak from the source: map the records to their dates,
sort ascending and walk adjacent pairs. -/
def getLongestStreak (days : List DayRecord) : Nat :=
  lsRun (List.insertionSort (· ≤ ·) (days.map (·.date)))

/-- Loop of getLast7Dates: push the cursor, step it back one calendar
day, n times in total. -/
def last7Aux : Nat → Nat → List Nat
  | _, 0 => []
  | cursor, n + 1 => cursor :: last7Aux (cursor - 1) n

/-- getLast7Dates from the source: the 7 day numbers today, today-1,
..., today-6 in that order.  The clock value is the explicit
argument. -/
def getLast7Dates (today : Nat) : List Nat :=
  last7Aux today 7

/-- Date-to-points association derived from a record list, as the
source's Map construction days.map(d => [d.date, d.points]): a later
record for the same date overwrites an earlier one, hence the lookup on
the reversed pair list; an absent date (or the falsy value 0) yields
0. -/
def lookupPoints (days : List DayRecord) (date : Nat) : Int :=
  (((days.map (fun d => (d.date, d.points))).reverse).lookup date).getD 0

/-- Accumulator step of the weekly-summary forEach: the state carries
(completedDays, totalPoints, bestDayPoints, bestDayDate).  A date
counts as completed when its points are positive; the best day is
replaced only on a strict improvement. -/
def wsStep (days : List DayRecord) : Nat × Int × Int × Option Nat → Nat → Nat × Int × Int × Option Nat
  | (cd, tp, bp, bd), date =>
    let pts := lookupPoints days date
    (if 0 < pts then cd + 1 else cd,
     tp + pts,
     if bp < pts then pts else bp,
     if bp < pts then some date else bd)

/-- Rounding of a rational to 2 decimal places, modelling the source's
Number((x).toFixed(2)).  Mathlib's round is round-half-up; for the
averages produced here (multiples of 1/7) the value is never exactly
half a hundredth, so all sensible tie-breaking rules agree. -/
def roundTo2 (q : ℚ) : ℚ :=
  (round (q * 100) : ℤ) / 100

/-- Result object of getWeeklySummary.  The source renders bestDay as a
human-readable date string with N/A as the sentinel for absence; the
present/absent distinction is modelled by Option. -/
structure WeeklySummary where
  completedDays : Nat
  totalPoints : Int
  avgPoints : ℚ
  bestDay : Option Nat

/-- getWeeklySummary from the source: fold the forEach body over the
last 7 dates starting from zeroed accumulators, then package the
result; the average is totalPoints/7 to 2 decimal places. -/
def getWeeklySummary (days : List DayRecord) (today : Nat) : WeeklySummary :=
  match (getLast7Dates today).foldl (wsStep days) (0, 0, 0, none) with
  | (cd, tp, _, bd) =>
    { completedDays := cd
      totalPoints := tp
      avgPoints := roundTo2 ((tp : ℚ) / 7)
      bestDay := bd }

/-- getWeeklyMotivation from the source: a four-way cascade of
threshold tests on the average. -/
def getWeeklyMotivation (avg : ℚ) : String :=
  if avg ≥ 4 then "Strong week. You’re building real momentum 💪"
  else if avg ≥ 2 then "Steady progress beats intensity. Keep going 🌱"
  else if avg > 0 then "Even imperfect weeks move you forward."
  else "A reset week is not failure — it’s information."

/-- One tally update of getTaskFrequency: increment the stored count of
the task if present (keeping key order, as a JS object does), otherwise
append it with count 1 (a fresh key goes last, as JS object insertion
order does). -/
def bump (acc : List (String × Nat)) (t : String) : List (String × Nat) :=
  if t ∈ acc.map Prod.fst then
    acc.map (fun p => if p.1 = t then (p.1, p.2 + 1) else p)
  else
    acc ++ [(t, 1)]

/-- Occurrence tally of task names in first-seen key order, modelling
the freq object of getTaskFrequency. -/
def tally (l : List String) : List (String × Nat) :=
  l.foldl bump []

/-- Descending-by-count comparison used to sort tally entries, the
source's comparator (a, b) => b count - a count. -/
def freqRel (a b : String × Nat) : Prop :=
  b.2 ≤ a.2

instance : DecidableRel freqRel := fun a b => Nat.decLe b.2 a.2

instance : IsTotal (String × Nat) freqRel :=
  ⟨fun a b => Nat.le_total b.2 a.2⟩

instance : IsTrans (String × Nat) freqRel :=
  ⟨fun _ _ _ h h2 => Nat.le_trans h2 h⟩

/-- getTaskFrequency from the source: tally the task names of all
completedTasks lists of all records, sort the entries by count
descending (insertion sort here, stable like the JS sort, though no
claim depends on the tie order) and keep the first limit entries.  The
source gives limit the default 5; it is an explicit argument here. -/
def getTaskFrequency (days : List DayRecord) (limit : Nat) : List (String × Nat) :=
  (List.insertionSort freqRel (tally ((days.map (·.completedTasks)).flatten))).take limit

/-- The fixed motivation-message pool of the source, in order. -/
def motivationMessages : List String :=
  ["Consistency beats motivation. See you tomorrow 🔥",
   "Small steps every day lead to big results 💪",
   "You showed up today. That’s what matters 👏",
   "Progress over perfection. Keep moving ✨",
   "Discipline is not force — it’s love for your future self 🌱",
   "When you act consciously, even small acts become powerful 🔥",
   "Don’t wait for motivation. Awareness itself creates energy.",
   "Your daily actions are your meditation in motion 🧘",
   "Drop by drop, the pot is filled. Continue calmly 🌊",
   "Right effort today makes tomorrow lighter.",
   "Peace comes from steady practice, not sudden bursts.",
   "Walk the path patiently — every step counts ☸️",
   "Become stronger through repetition — that is the way.",
   "He who has a reason to continue will endure the day.",
   "Comfort weakens the will. Discipline sharpens it ⚔️",
   "You are becoming — do not interrupt the process.",
   "Stay hungry. Comfort kills growth.",
   "Discipline creates options. Laziness closes doors.",
   "Do the work quietly. Results will make noise.",
   "No excuses today. That’s how momentum is built.",
   "You didn’t rely on mood today — you relied on discipline.",
   "Show up again tomorrow. That’s how identity is built.",
   "One focused day beats ten emotional plans.",
   "You’re training your mind more than your body today 💯"]

/-- getMotivationMessage from the source: take the floor of the random
sample (a value of Math.random, in [0,1)) scaled by the pool size and
index the pool there.  Out-of-range indexing would be undefined in JS,
hence the Option result. -/
def getMotivationMessage (r : ℚ) : Option String :=
  motivationMessages.get? (Int.toNat ⌊r * (motivationMessages.length : ℚ)⌋)

/-- Ambient environment the source reads implicitly: the clock (the day
number the today() helper would format) and the state of the random
source.  The analytics functions receive the records and the clock
value; nothing else of the environment may influence them. -/
structure Env where
  clock : Nat
  rand : ℚ

/-- Aggregate object served by the /data route, restricted to the
fields the analytics engine computes. -/
structure DataResponse where
  days : List DayRecord
  today : Nat
  currentStreak : Nat
  longestStreak : Nat
  weeklySummary : WeeklySummary
  taskFrequency : List (String × Nat)
  weeklyMotivation : String

/-- The /data route of the source: every analytics function applied to
the snapshot and the clock, with taskFrequency limited to 3 and the
motivation derived from the weekly average. -/
def dataResponse (e : Env) (days : List DayRecord) : DataResponse :=
  let ws := getWeeklySummary days e.clock
  { days := days
    today := e.clock
    currentStreak := getCurrentStreak days e.clock
    longestStreak := getLongestStreak days
    weeklySummary := ws
    taskFrequency := getTaskFrequency days 3
    weeklyMotivation := getWeeklyMotivation ws.avgPoints }

/-- Length of the run of consecutive members of s starting at d,
bounded by the fuel: the largest n up to the fuel with d, d+1, ...,
d+n-1 all members of s. -/
def runLenAux (s : Finset Nat) : Nat → Nat → Nat
  | 0, _ => 0
  | f + 1, d => if d ∈ s then runLenAux s f (d + 1) + 1 else 0

/-- Length of the run of consecutive members of s starting at d.  Fuel
equal to the cardinality of s suffices, because a run consists of
distinct members of s. -/
def runLen (s : Finset Nat) (d : Nat) : Nat :=
  runLenAux s s.card d

/-- Modelled from the spec: the longest streak of a date set is the
maximum, over all dates of the set, of the length of the run of
consecutive calendar days of the set that starts there. -/
def specLongestStreak (s : Finset Nat) : Nat :=
  s.sup (runLen s)

/-- Modelled from the spec: the points of a calendar date are those of
the matching day record, 0 if absent.  Under the one-record-per-date
invariant the first match is the match. -/
def specPoints (days : List DayRecord) (date : Nat) : Int :=
  (((days.map (fun d => (d.date, d.points)))).lookup date).getD 0

/-- Modelled from the spec: the best day of the week is the date among
the last 7 with the strictly highest positive points, ties resolved to
the first one encountered scanning from most recent to least recent,
and absent when no date of the week has positive points. -/
def specBestDay (days : List DayRecord) (today : Nat) : Option Nat :=
  let l7 := getLast7Dates today
  let M := (l7.map (specPoints days)).foldl max 0
  if 0 < M then l7.find? (fun d => decide (M ≤ specPoints days d)) else none

/-- Intermediate form of the getLongestStreak walk with the
best-so-far bookkeeping stripped: the maximum over the current run
(extended as far as the list continues it) and all later runs. -/
def runsMax : Nat → Nat → List Nat → Nat
  | _, cur, [] => cur
  | prev, cur, x :: r =>
    if x = prev + 1 then runsMax x (cur + 1) r else max cur (runsMax x 1 r)

/-- Count stored for a task name in a tally accumulator, 0 when the
name has no entry. -/
def keyCount (acc : List (String × Nat)) (x : String) : Nat :=
  (acc.lookup x).getD 0

lemma streakFrom_nil (t : Nat) : streakFrom [] t = 0 := by
  cases t <;> simp [streakFrom]

lemma streakFrom_eq (s : List Nat) :
    ∀ n today, n ≤ today → (∀ k, k < n → today - k ∈ s) → today - n ∉ s →
      streakFrom s today = n := by
  intro n
  induction n with
  | zero =>
    intro today _ _ hgap
    have h0 : today ∉ s := by simpa using hgap
    cases today with
    | zero => simp [streakFrom, h0]
    | succ c => simp [streakFrom, h0]
  | succ m ih =>
    intro today hle hrun hgap
    obtain ⟨c, rfl⟩ : ∃ c, today = c + 1 := ⟨today - 1, by omega⟩
    have hmem : c + 1 ∈ s := by simpa using hrun 0 (by omega)
    have hrec : streakFrom s c = m := by
      apply ih c (by omega)
      · intro k hk
        have hx := hrun (k + 1) (by omega)
        simpa [show c + 1 - (k + 1) = c - k by omega] using hx
      · simpa [show c + 1 - (m + 1) = c - m by omega] using hgap
    simp [streakFrom, hmem, hrec]

/-- C1: for records covering exactly the n consecutive calendar days
ending at today (and no record on the day before that run),
getCurrentStreak returns n; an empty day-set yields 0 for any today,
and a gap on today itself is the n = 0 instance. -/
theorem getCurrentStreak_run_spec (days : List DayRecord) (today n : Nat)
    (hn : n ≤ today)
    (hrun : ∀ k, k < n → today - k ∈ days.map (·.date))
    (hgap : today - n ∉ days.map (·.date)) :
    getCurrentStreak days today = n ∧ ∀ t, getCurrentStreak [] t = 0 := by
  constructor
  · exact streakFrom_eq _ n today hn hrun hgap
  · intro t
    simpa [getCurrentStreak] using streakFrom_nil t

theorem getCurrentStreak_run_spec_witness :
    getCurrentStreak [⟨10, ["a"], 1, ""⟩, ⟨9, ["a"], 1, ""⟩, ⟨8, ["a"], 1, ""⟩] 10 = 3 ∧
      ∀ t, getCurrentStreak [] t = 0 :=
  getCurrentStreak_run_spec [⟨10, ["a"], 1, ""⟩, ⟨9, ["a"], 1, ""⟩, ⟨8, ["a"], 1, ""⟩] 10 3
    (by norm_num)
    (by intro k hk; interval_cases k <;> simp)
    (by simp)

lemma streakFrom_le_card (s : List Nat) :
    ∀ c, streakFrom s c ≤ (s.toFinset.filter (fun x => x ≤ c)).card := by
  intro c
  induction c with
  | zero =>
    by_cases h0 : 0 ∈ s
    · have hmem : (0 : Nat) ∈ s.toFinset.filter (fun x => x ≤ 0) := by
        simp [List.mem_toFinset, h0]
      simpa [streakFrom, h0] using Finset.card_pos.mpr ⟨0, hmem⟩
    · simp [streakFrom, h0]
  | succ c ih =>
    by_cases hm : c + 1 ∈ s
    · have hsub1 : s.toFinset.filter (fun x => x ≤ c) ⊆ s.toFinset.filter (fun x => x ≤ c + 1) := by
        intro x hx
        simp only [Finset.mem_filter] at hx ⊢
        exact ⟨hx.1, by omega⟩
      have hmem1 : c + 1 ∈ s.toFinset.filter (fun x => x ≤ c + 1) := by
        simp [List.mem_toFinset, hm]
      have hmem2 : c + 1 ∉ s.toFinset.filter (fun x => x ≤ c) := by simp
      have hss : s.toFinset.filter (fun x => x ≤ c) ⊂ s.toFinset.filter (fun x => x ≤ c + 1) := by
        rw [Finset.ssubset_def]
        exact ⟨hsub1, fun hsup => hmem2 (hsup hmem1)⟩
      have hlt := Finset.card_lt_card hss
      simp only [streakFrom, if_pos hm]
      omega
    · simp [streakFrom, hm]

/-- C10: getCurrentStreak is a total function (its cursor strictly
decreases), and the streak it returns is at most the number of distinct
record dates. -/
theorem getCurrentStreak_le_card (days : List DayRecord) (today : Nat) :
    getCurrentStreak days today ≤ ((days.map (·.date)).toFinset).card :=
  le_trans (streakFrom_le_card _ today) (Finset.card_filter_le _ _)

/-- C8: getLast7Dates returns exactly the 7 day numbers today, today-1,
..., today-6, in descending order. -/
theorem getLast7Dates_spec (today : Nat) (h : 6 ≤ today) :
    getLast7Dates today =
      [today, today - 1, today - 2, today - 3, today - 4, today - 5, today - 6] ∧
    (getLast7Dates today).length = 7 ∧
    List.Pairwise (fun a b => b < a) (getLast7Dates today) := by
  have he : getLast7Dates today =
      [today, today - 1, today - 2, today - 3, today - 4, today - 5, today - 6] := by
    simp only [getLast7Dates, last7Aux]
    norm_num [Nat.sub_sub]
  refine ⟨he, by rw [he]; rfl, ?_⟩
  rw [he]
  simp only [List.pairwise_cons, List.mem_cons, List.mem_singleton, List.not_mem_nil,
    or_false, false_or, List.Pairwise.nil, and_true, List.not_mem_nil, IsEmpty.forall_iff,
    forall_eq_or_imp, forall_eq, implies_true]
  omega

theorem getLast7Dates_spec_witness :
    getLast7Dates 100 = [100, 99, 98, 97, 96, 95, 94] ∧
    (getLast7Dates 100).length = 7 ∧
    List.Pairwise (fun a b => b < a) (getLast7Dates 100) := by
  simpa using getLast7Dates_spec 100 (by norm_num)

/-- C5: getWeeklyMotivation maps an average at least 4 to the strong
week tier, an average in the interval from 2 inclusive to 4 exclusive
to the steady progress tier, a positive average below 2 to the
imperfect tier, and a zero average to the reset week tier. -/
theorem getWeeklyMotivation_tiers (avg : ℚ) :
    (4 ≤ avg → getWeeklyMotivation avg = "Strong week. You’re building real momentum 💪") ∧
    (2 ≤ avg → avg < 4 → getWeeklyMotivation avg = "Steady progress beats intensity. Keep going 🌱") ∧
    (0 < avg → avg < 2 → getWeeklyMotivation avg = "Even imperfect weeks move you forward.") ∧
    (avg = 0 → getWeeklyMotivation avg = "A reset week is not failure — it’s information.") := by
  unfold getWeeklyMotivation
  refine ⟨fun h1 => ?_, fun h1 h2 => ?_, fun h1 h2 => ?_, fun h1 => ?_⟩
  · rw [if_pos (by linarith)]
  · rw [if_neg (by linarith), if_pos (by linarith)]
  · rw [if_neg (by linarith), if_neg (by linarith), if_pos h1]
  · subst h1
    norm_num

theorem getWeeklyMotivation_tiers_witness :
    getWeeklyMotivation 0 = "A reset week is not failure — it’s information." ∧
    getWeeklyMotivation (9 / 2) = "Strong week. You’re building real momentum 💪" ∧
    getWeeklyMotivation 2 = "Steady progress beats intensity. Keep going 🌱" ∧
    getWeeklyMotivation (3999 / 1000) = "Steady progress beats intensity. Keep going 🌱" :=
  ⟨(getWeeklyMotivation_tiers 0).2.2.2 rfl,
   (getWeeklyMotivation_tiers (9 / 2)).1 (by norm_num),
   (getWeeklyMotivation_tiers 2).2.1 (by norm_num) (by norm_num),
   (getWeeklyMotivation_tiers (3999 / 1000)).2.1 (by norm_num) (by norm_num)⟩

/-- C9: for any random sample in the unit interval, the index computed
by getMotivationMessage is within the pool bounds and the selected
message is a member of the pool. -/
theorem getMotivationMessage_mem (r : ℚ) (h0 : 0 ≤ r) (h1 : r < 1) :
    ∃ m, getMotivationMessage r = some m ∧ m ∈ motivationMessages := by
  have hlen : motivationMessages.length = 24 := rfl
  have hcast : (motivationMessages.length : ℚ) = 24 := by rw [hlen]; norm_num
  have hflo : 0 ≤ ⌊r * (motivationMessages.length : ℚ)⌋ :=
    Int.floor_nonneg.mpr (mul_nonneg h0 (by positivity))
  have hfhi : ⌊r * (motivationMessages.length : ℚ)⌋ < 24 := by
    apply Int.floor_lt.mpr
    rw [hcast]
    push_cast
    nlinarith
  have hi : Int.toNat ⌊r * (motivationMessages.length : ℚ)⌋ < motivationMessages.length := by
    omega
  refine ⟨motivationMessages.get ⟨_, hi⟩, ?_, List.get_mem _ _ _⟩
  unfold getMotivationMessage
  exact List.get?_eq_get hi

theorem getMotivationMessage_mem_witness :
    ∃ m, getMotivationMessage (1 / 2) = some m ∧ m ∈ motivationMessages :=
  getMotivationMessage_mem (1 / 2) (by norm_num) (by norm_num)

lemma runLenAux_mem (s : Finset Nat) :
    ∀ f d k, k < runLenAux s f d → d + k ∈ s := by
  intro f
  induction f with
  | zero => intro d k hk; simp [runLenAux] at hk
  | succ f ih =>
    intro d k hk
    by_cases hd : d ∈ s
    · rw [runLenAux, if_pos hd] at hk
      cases k with
      | zero => simpa using hd
      | succ j =>
        have hj := ih (d + 1) j (by omega)
        simpa [show d + (j + 1) = d + 1 + j by omega] using hj
    · rw [runLenAux, if_neg hd] at hk
      omega

lemma runLenAux_ge (s : Finset Nat) :
    ∀ f d n, n ≤ f → (∀ k, k < n → d + k ∈ s) → n ≤ runLenAux s f d := by
  intro f
  induction f with
  | zero => intro d n hn _; omega
  | succ f ih =>
    intro d n hn hmem
    cases n with
    | zero => omega
    | succ m =>
      have hd : d ∈ s := by simpa using hmem 0 (by omega)
      rw [runLenAux, if_pos hd]
      have hrec : m ≤ runLenAux s f (d + 1) := by
        apply ih (d + 1) m (by omega)
        intro k hk
        simpa [show d + 1 + k = d + (k + 1) by omega] using hmem (k + 1) (by omega)
      omega

lemma run_card_bound (s : Finset Nat) (d n : Nat)
    (h : ∀ k, k < n → d + k ∈ s) : n ≤ s.card := by
  have hsub : (Finset.range n).image (fun k => d + k) ⊆ s := by
    intro x hx
    simp only [Finset.mem_image, Finset.mem_range] at hx
    obtain ⟨k, hk, rfl⟩ := hx
    exact h k hk
  have hcard := Finset.card_le_card hsub
  rwa [Finset.card_image_of_injective _ (fun a b hab => by simpa using hab),
    Finset.card_range] at hcard

lemma runLen_ge (s : Finset Nat) (d n : Nat)
    (h : ∀ k, k < n → d + k ∈ s) : n ≤ runLen s d :=
  runLenAux_ge s s.card d n (run_card_bound s d n h) h

lemma runLen_mem (s : Finset Nat) (d k : Nat) (h : k < runLen s d) : d + k ∈ s :=
  runLenAux_mem s s.card d k h

lemma runLen_notMem (s : Finset Nat) (d : Nat) : d + runLen s d ∉ s := by
  intro hmem
  have hcon : runLen s d + 1 ≤ runLen s d := by
    apply runLen_ge
    intro k hk
    rcases Nat.lt_or_ge k (runLen s d) with hlt | hge
    · exact runLen_mem s d k hlt
    · have hke : k = runLen s d := by omega
      subst hke
      exact hmem
  omega

lemma runLen_eq_iff (s : Finset Nat) (d n : Nat) :
    runLen s d = n ↔ (∀ k, k < n → d + k ∈ s) ∧ d + n ∉ s := by
  constructor
  · rintro rfl
    exact ⟨fun k hk => runLen_mem s d k hk, runLen_notMem s d⟩
  · rintro ⟨h1, h2⟩
    have hge := runLen_ge s d n h1
    have hle : runLen s d ≤ n := by
      by_contra hcon
      exact h2 (runLen_mem s d n (by omega))
    omega

lemma runLen_congr (s t : Finset Nat) (d : Nat)
    (h : ∀ k, d + k ∈ s ↔ d + k ∈ t) : runLen s d = runLen t d := by
  rw [runLen_eq_iff]
  exact ⟨fun k hk => (h k).mpr (runLen_mem t d k hk),
    fun hm => runLen_notMem t d ((h _).mp hm)⟩

lemma runLen_of_notMem (s : Finset Nat) (d : Nat) (h : d ∉ s) : runLen s d = 0 := by
  rw [runLen_eq_iff]
  exact ⟨fun k hk => absurd hk (by omega), by simpa using h⟩

lemma runLen_of_mem (s : Finset Nat) (d : Nat) (h : d ∈ s) :
    runLen s d = runLen s (d + 1) + 1 := by
  rw [runLen_eq_iff]
  constructor
  · intro k hk
    cases k with
    | zero => simpa using h
    | succ j =>
      have hj := runLen_mem s (d + 1) j (by omega)
      simpa [show d + (j + 1) = d + 1 + j by omega] using hj
  · have hn := runLen_notMem s (d + 1)
    simpa [show d + (runLen s (d + 1) + 1) = d + 1 + runLen s (d + 1) by omega] using hn

lemma specLongestStreak_insert (h : Nat) (T : Finset Nat)
    (hlt : ∀ y ∈ T, h < y) :
    specLongestStreak (insert h T) = max (runLen T (h + 1) + 1) (specLongestStreak T) := by
  unfold specLongestStreak
  rw [Finset.sup_insert]
  have e1 : runLen (insert h T) h = runLen T (h + 1) + 1 := by
    rw [runLen_of_mem _ _ (Finset.mem_insert_self h T)]
    congr 1
    apply runLen_congr
    intro k
    simp only [Finset.mem_insert]
    constructor
    · rintro (he | hmem)
      · exfalso; omega
      · exact hmem
    · exact Or.inr
  have e2 : T.sup (runLen (insert h T)) = T.sup (runLen T) := by
    apply Finset.sup_congr rfl
    intro x hx
    apply runLen_congr
    intro k
    simp only [Finset.mem_insert]
    constructor
    · rintro (he | hmem)
      · exfalso
        have hx2 := hlt x hx
        omega
      · exact hmem
    · exact Or.inr
  rw [e1, e2, sup_eq_max]

lemma runsMax_ge : ∀ (l : List Nat) (prev cur : Nat), cur ≤ runsMax prev cur l := by
  intro l
  induction l with
  | nil => intro prev cur; simp [runsMax]
  | cons x r ih =>
    intro prev cur
    by_cases hx : x = prev + 1
    · simp only [runsMax, if_pos hx]
      have hge := ih x (cur + 1)
      omega
    · simp only [runsMax, if_neg hx]
      omega

lemma lsLoop_eq_runsMax :
    ∀ (l : List Nat) (prev cur longest : Nat), 1 ≤ cur → cur ≤ longest →
      lsLoop prev cur longest l = max longest (runsMax prev cur l) := by
  intro l
  induction l with
  | nil =>
    intro prev cur longest h1 h2
    simp only [lsLoop, runsMax]
    omega
  | cons x r ih =>
    intro prev cur longest h1 h2
    by_cases hx : x = prev + 1
    · have hcond : (x : Int) - (prev : Int) = 1 := by omega
      simp only [lsLoop, if_pos hcond, runsMax, if_pos hx]
      rw [ih x (cur + 1) (max longest (cur + 1)) (by omega) (le_max_right _ _)]
      have hge := runsMax_ge r x (cur + 1)
      omega
    · have hcond : ¬((x : Int) - (prev : Int) = 1) := by omega
      simp only [lsLoop, if_neg hcond, runsMax, if_neg hx]
      rw [ih x 1 longest (by omega) (by omega)]
      omega

lemma runsMax_eq_spec :
    ∀ (t : List Nat) (prev cur : Nat), List.Sorted (· < ·) (prev :: t) →
      runsMax prev cur t =
        max (cur + runLen t.toFinset (prev + 1)) (specLongestStreak t.toFinset) := by
  intro t
  induction t with
  | nil =>
    intro prev cur _
    simp [runsMax, specLongestStreak, runLen, runLenAux]
  | cons x r ih =>
    intro prev cur hsorted
    have hsx : List.Sorted (· < ·) (x :: r) := hsorted.of_cons
    have hpx : prev < x := (List.sorted_cons.mp hsorted).1 x (by simp)
    have hxr : ∀ y ∈ r, x < y := fun y hy => (List.sorted_cons.mp hsx).1 y hy
    have hins : ∀ y ∈ r.toFinset, x < y := fun y hy => hxr y (List.mem_toFinset.mp hy)
    rw [List.toFinset_cons]
    by_cases hx : x = prev + 1
    · subst hx
      simp only [runsMax, eq_self_iff_true, if_true]
      rw [ih (prev + 1) (cur + 1) hsx]
      have e1 : runLen (insert (prev + 1) r.toFinset) (prev + 1) =
          runLen r.toFinset (prev + 1 + 1) + 1 := by
        rw [runLen_of_mem _ _ (Finset.mem_insert_self _ _)]
        congr 1
        apply runLen_congr
        intro k
        simp only [Finset.mem_insert]
        constructor
        · rintro (he | hmem)
          · exfalso; omega
          · exact hmem
        · exact Or.inr
      rw [e1, specLongestStreak_insert (prev + 1) r.toFinset hins]
      have hge := runsMax_ge r (prev + 1) (cur + 1)
      omega
    · simp only [runsMax, if_neg hx]
      rw [ih x 1 hsx]
      have e0 : runLen (insert x r.toFinset) (prev + 1) = 0 := by
        apply runLen_of_notMem
        simp only [Finset.mem_insert, List.mem_toFinset]
        rintro (he | hmem)
        · exact hx he.symm
        · have hy := hxr _ hmem
          omega
      rw [e0, specLongestStreak_insert x r.toFinset hins]
      omega

lemma lsRun_eq_spec (l : List Nat) (hs : List.Sorted (· < ·) l) :
    lsRun l = specLongestStreak l.toFinset := by
  cases l with
  | nil => simp [lsRun, specLongestStreak]
  | cons h t =>
    simp only [lsRun]
    rw [lsLoop_eq_runsMax t h 1 1 (by omega) (by omega)]
    rw [runsMax_eq_spec t h 1 hs]
    rw [List.toFinset_cons]
    have hlt : ∀ y ∈ t.toFinset, h < y := by
      intro y hy
      exact (List.sorted_cons.mp hs).1 y (List.mem_toFinset.mp hy)
    rw [specLongestStreak_insert h t.toFinset hlt]
    omega

/-- C2: for records with distinct dates, getLongestStreak equals the
maximum length of a run of consecutive calendar days among the record
dates; the empty set yields 0, a singleton yields 1, and the dates
2024-01-01, 2024-01-02, 2024-01-03, 2024-01-10 yield 3. -/
theorem getLongestStreak_spec (days : List DayRecord)
    (h : (days.map (·.date)).Nodup) :
    getLongestStreak days = specLongestStreak (days.map (·.date)).toFinset ∧
    getLongestStreak [] = 0 ∧
    (∀ d1 : DayRecord, getLongestStreak [d1] = 1) ∧
    getLongestStreak
      [⟨toDayNumber 2024 1 1, [], 1, ""⟩, ⟨toDayNumber 2024 1 2, [], 1, ""⟩,
       ⟨toDayNumber 2024 1 3, [], 1, ""⟩, ⟨toDayNumber 2024 1 10, [], 1, ""⟩] = 3 := by
  refine ⟨?_, rfl, fun d1 => rfl, by decide⟩
  unfold getLongestStreak
  have hperm : List.Perm (List.insertionSort (· ≤ ·) (days.map (·.date))) (days.map (·.date)) :=
    List.perm_insertionSort _ _
  have hsle : List.Sorted (· ≤ ·) (List.insertionSort (· ≤ ·) (days.map (·.date))) :=
    List.sorted_insertionSort _ _
  have hnd : (List.insertionSort (· ≤ ·) (days.map (·.date))).Nodup :=
    hperm.nodup_iff.mpr h
  have hslt : List.Sorted (· < ·) (List.insertionSort (· ≤ ·) (days.map (·.date))) :=
    (hsle.and hnd).imp fun hab => lt_of_le_of_ne hab.1 hab.2
  rw [lsRun_eq_spec _ hslt, List.toFinset_eq_of_perm _ _ hperm]

lemma lookup_append {α β : Type} [BEq α] (l1 l2 : List (α × β)) (x : α) :
    (l1 ++ l2).lookup x = (l1.lookup x).or (l2.lookup x) := by
  induction l1 with
  | nil => simp [List.lookup]
  | cons p t ih =>
    obtain ⟨k, v⟩ := p
    cases hbeq : x == k with
    | true => simp [List.lookup, hbeq]
    | false => simp [List.lookup, hbeq, ih]

lemma lookup_none {α β : Type} [BEq α] [LawfulBEq α] (l : List (α × β)) (x : α)
    (h : x ∉ l.map Prod.fst) : l.lookup x = none := by
  induction l with
  | nil => simp [List.lookup]
  | cons p t ih =>
    obtain ⟨k, v⟩ := p
    simp only [List.map_cons, List.mem_cons] at h
    push_neg at h
    have hbeq : (x == k) = false := beq_false_of_ne h.1
    have hstep : ((k, v) :: t).lookup x = t.lookup x := by
      simp only [List.lookup, hbeq]
    rw [hstep]
    exact ih h.2

lemma lookup_isSome {α β : Type} [BEq α] [LawfulBEq α] (l : List (α × β)) (x : α)
    (h : x ∈ l.map Prod.fst) : ∃ v, l.lookup x = some v := by
  induction l with
  | nil => simp at h
  | cons p t ih =>
    obtain ⟨k, v⟩ := p
    by_cases hx : x = k
    · subst hx
      exact ⟨v, by simp [List.lookup]⟩
    · have hbeq : (x == k) = false := beq_false_of_ne hx
      have hmem : x ∈ t.map Prod.fst := by
        simp only [List.map_cons, List.mem_cons] at h
        tauto
      obtain ⟨w, hw⟩ := ih hmem
      exact ⟨w, by simp [List.lookup, hbeq, hw]⟩

lemma lookup_reverse {α β : Type} [BEq α] [LawfulBEq α] (l : List (α × β))
    (h : (l.map Prod.fst).Nodup) (x : α) :
    l.reverse.lookup x = l.lookup x := by
  induction l with
  | nil => simp
  | cons p t ih =>
    obtain ⟨k, v⟩ := p
    simp only [List.map_cons, List.nodup_cons] at h
    rw [List.reverse_cons, lookup_append]
    by_cases hx : x = k
    · subst hx
      have hk : x ∉ t.reverse.map Prod.fst := by
        rw [List.map_reverse, List.mem_reverse]
        exact h.1
      rw [lookup_none _ _ hk]
      simp [List.lookup]
    · have hbeq : (x == k) = false := beq_false_of_ne hx
      rw [ih h.2]
      simp [List.lookup, hbeq]

lemma lookupPoints_eq_spec (days : List DayRecord)
    (h : (days.map (·.date)).Nodup) (x : Nat) :
    lookupPoints days x = specPoints days x := by
  unfold lookupPoints specPoints
  have hkeys : ((days.map (fun d => (d.date, d.points))).map Prod.fst).Nodup := by
    rw [List.map_map]
    exact h
  rw [lookup_reverse _ hkeys x]

lemma foldl_max_init (l : List Int) : ∀ b : Int, b ≤ l.foldl max b := by
  induction l with
  | nil => intro b; simp
  | cons x r ih =>
    intro b
    simp only [List.foldl_cons]
    exact le_trans (le_max_left b x) (ih (max b x))

lemma foldl_max_mem (l : List Int) : ∀ (b a : Int), a ∈ l → a ≤ l.foldl max b := by
  induction l with
  | nil => intro b a h; simp at h
  | cons x r ih =>
    intro b a h
    simp only [List.foldl_cons]
    rcases List.mem_cons.mp h with rfl | hmem
    · exact le_trans (le_max_right b a) (foldl_max_init r (max b a))
    · exact ih (max b x) a hmem

lemma ite_lt_max (bp p : Int) : (if bp < p then p else bp) = max bp p := by
  split <;> omega

lemma wsFold_eq (days : List DayRecord) :
    ∀ (l : List Nat) (cd : Nat) (tp bp : Int) (bd : Option Nat),
      l.foldl (wsStep days) (cd, tp, bp, bd) =
        (cd + l.countP (fun d => decide (0 < lookupPoints days d)),
         tp + (l.map (lookupPoints days)).sum,
         (l.map (lookupPoints days)).foldl max bp,
         if (l.map (lookupPoints days)).foldl max bp ≤ bp then bd
         else l.find? (fun d =>
           decide ((l.map (lookupPoints days)).foldl max bp ≤ lookupPoints days d))) := by
  intro l
  induction l with
  | nil => intro cd tp bp bd; simp
  | cons x r ih =>
    intro cd tp bp bd
    have hstep : wsStep days (cd, tp, bp, bd) x =
        (if 0 < lookupPoints days x then cd + 1 else cd,
         tp + lookupPoints days x,
         max bp (lookupPoints days x),
         if bp < lookupPoints days x then some x else bd) := by
      simp only [wsStep, ite_lt_max]
    simp only [List.foldl_cons, hstep]
    rw [ih]
    have hM : ((x :: r).map (lookupPoints days)).foldl max bp =
        (r.map (lookupPoints days)).foldl max (max bp (lookupPoints days x)) := by
      simp [List.foldl_cons]
    simp only [Prod.mk.injEq]
    refine ⟨?_, ?_, ?_, ?_⟩
    · rw [List.countP_cons]
      by_cases hx : 0 < lookupPoints days x <;> simp [hx] <;> omega
    · rw [List.map_cons, List.sum_cons]
      ring
    · rw [hM]
    · rw [hM]
      by_cases h1 : bp < lookupPoints days x
      · rw [max_eq_right (le_of_lt h1)]
        have hini := foldl_max_init (r.map (lookupPoints days)) (lookupPoints days x)
        by_cases h2 : (r.map (lookupPoints days)).foldl max (lookupPoints days x) ≤
            lookupPoints days x
        · rw [if_pos h2, if_pos h1, if_neg (by omega),
            List.find?_cons_of_pos _ (by simpa using h2)]
        · rw [if_neg h2, if_neg (by omega),
            List.find?_cons_of_neg _ (by simpa using h2)]
      · rw [max_eq_left (by omega)]
        have hini := foldl_max_init (r.map (lookupPoints days)) bp
        by_cases h2 : (r.map (lookupPoints days)).foldl max bp ≤ bp
        · rw [if_pos h2, if_pos h2, if_neg h1]
        · rw [if_neg h2, if_neg h2,
            List.find?_cons_of_neg _ (by simp only [decide_eq_true_eq]; omega)]

/-- C3: getWeeklySummary counts as completedDays the dates of the last
7 with positive points (a missing date contributing 0), sums those
points into totalPoints, and reports avgPoints as totalPoints divided
by 7 rounded to 2 decimal places; a week with points 2,0,0,5,0,0,1
(most recent first) yields 3 completed days, 8 total points and
average 1.14. -/
theorem getWeeklySummary_spec (days : List DayRecord) (today : Nat)
    (h : (days.map (·.date)).Nodup) :
    (getWeeklySummary days today).completedDays =
      ((getLast7Dates today).filter (fun d => decide (0 < specPoints days d))).length ∧
    (getWeeklySummary days today).totalPoints =
      ((getLast7Dates today).map (specPoints days)).sum ∧
    (getWeeklySummary days today).avgPoints =
      ((round ((((getLast7Dates today).map (specPoints days)).sum : ℚ) * 100 / 7) : ℤ) : ℚ) / 100 ∧
    (getWeeklySummary [⟨100, ["a", "b"], 2, ""⟩, ⟨97, ["a"], 5, ""⟩, ⟨94, ["b"], 1, ""⟩]
      100).completedDays = 3 ∧
    (getWeeklySummary [⟨100, ["a", "b"], 2, ""⟩, ⟨97, ["a"], 5, ""⟩, ⟨94, ["b"], 1, ""⟩]
      100).totalPoints = 8 ∧
    (getWeeklySummary [⟨100, ["a", "b"], 2, ""⟩, ⟨97, ["a"], 5, ""⟩, ⟨94, ["b"], 1, ""⟩]
      100).avgPoints = 57 / 50 := by
  have hP : lookupPoints days = specPoints days :=
    funext (lookupPoints_eq_spec days h)
  have hfold := wsFold_eq days (getLast7Dates today) 0 0 0 none
  rw [hP] at hfold
  refine ⟨?_, ?_, ?_, by decide, by decide, ?_⟩
  · simp only [getWeeklySummary, hfold]
    simp [List.countP_eq_length_filter]
  · simp only [getWeeklySummary, hfold]
    simp
  · simp only [getWeeklySummary, hfold, roundTo2]
    simp only [zero_add]
    rw [div_mul_eq_mul_div]
  · show roundTo2 (((8 : ℤ) : ℚ) / 7) = 57 / 50
    unfold roundTo2
    rw [round_eq]
    have h114 : ⌊((8 : ℤ) : ℚ) / 7 * 100 + 1 / 2⌋ = 114 := by
      rw [Int.floor_eq_iff]
      constructor
      · push_cast
        norm_num
      · push_cast
        norm_num
    rw [h114]
    norm_num

/-- C4: the bestDay field of getWeeklySummary is, among the last 7
dates scanned from most recent to least recent, the first date
attaining the strictly highest positive points, and the absent
sentinel (the source's N/A) when no date of the week has positive
points. -/
theorem getWeeklySummary_bestDay (days : List DayRecord) (today : Nat)
    (h : (days.map (·.date)).Nodup) :
    (getWeeklySummary days today).bestDay = specBestDay days today := by
  have hP : lookupPoints days = specPoints days :=
    funext (lookupPoints_eq_spec days h)
  have hfold := wsFold_eq days (getLast7Dates today) 0 0 0 none
  rw [hP] at hfold
  simp only [getWeeklySummary, hfold, specBestDay]
  by_cases hM : ((getLast7Dates today).map (specPoints days)).foldl max 0 ≤ 0
  · rw [if_pos hM, if_neg (by omega)]
  · rw [if_neg hM, if_pos (by omega)]

theorem getWeeklySummary_bestDay_witness :
    (getWeeklySummary [⟨100, ["a", "b"], 2, ""⟩, ⟨97, ["a"], 5, ""⟩] 100).bestDay =
      specBestDay [⟨100, ["a", "b"], 2, ""⟩, ⟨97, ["a"], 5, ""⟩] 100 :=
  getWeeklySummary_bestDay [⟨100, ["a", "b"], 2, ""⟩, ⟨97, ["a"], 5, ""⟩] 100 (by decide)

theorem getWeeklySummary_spec_witness :
    (getWeeklySummary [] 100).completedDays =
      ((getLast7Dates 100).filter (fun d => decide (0 < specPoints [] d))).length ∧
    (getWeeklySummary [] 100).totalPoints =
      ((getLast7Dates 100).map (specPoints [])).sum ∧
    (getWeeklySummary [] 100).avgPoints =
      ((round ((((getLast7Dates 100).map (specPoints [])).sum : ℚ) * 100 / 7) : ℤ) : ℚ) / 100 ∧
    (getWeeklySummary [⟨100, ["a", "b"], 2, ""⟩, ⟨97, ["a"], 5, ""⟩, ⟨94, ["b"], 1, ""⟩]
      100).completedDays = 3 ∧
    (getWeeklySummary [⟨100, ["a", "b"], 2, ""⟩, ⟨97, ["a"], 5, ""⟩, ⟨94, ["b"], 1, ""⟩]
      100).totalPoints = 8 ∧
    (getWeeklySummary [⟨100, ["a", "b"], 2, ""⟩, ⟨97, ["a"], 5, ""⟩, ⟨94, ["b"], 1, ""⟩]
      100).avgPoints = 57 / 50 :=
  getWeeklySummary_spec [] 100 (by decide)

lemma bump_keys (acc : List (String × Nat)) (t : String) :
    (bump acc t).map Prod.fst =
      if t ∈ acc.map Prod.fst then acc.map Prod.fst else acc.map Prod.fst ++ [t] := by
  unfold bump
  split
  · rw [List.map_map]
    apply List.map_congr_left
    intro p _
    by_cases hp : p.1 = t <;> simp [hp]
  · simp

lemma bump_keys_nodup (acc : List (String × Nat)) (t : String)
    (h : (acc.map Prod.fst).Nodup) : ((bump acc t).map Prod.fst).Nodup := by
  rw [bump_keys]
  split
  · exact h
  next hmem =>
    simp only [List.nodup_append, h, true_and, List.nodup_cons, List.not_mem_nil,
      not_false_iff, List.nodup_nil, and_true, List.disjoint_singleton]
    exact hmem

lemma bump_keys_mem (acc : List (String × Nat)) (t x : String) :
    x ∈ (bump acc t).map Prod.fst ↔ x ∈ acc.map Prod.fst ∨ x = t := by
  rw [bump_keys]
  split
  next hmem =>
    constructor
    · exact Or.inl
    · rintro (hx | rfl)
      · exact hx
      · exact hmem
  next hmem => simp

lemma lookup_map_update (acc : List (String × Nat)) (t x : String) :
    (acc.map (fun p => if p.1 = t then (p.1, p.2 + 1) else p)).lookup x =
      (acc.lookup x).map (fun v => if x = t then v + 1 else v) := by
  induction acc with
  | nil => simp [List.lookup]
  | cons p r ih =>
    obtain ⟨k, v⟩ := p
    simp only [List.map_cons]
    by_cases hkt : k = t
    · rw [if_pos hkt]
      by_cases hxk : x = k
      · have hbeq : (x == k) = true := by rw [beq_iff_eq]; exact hxk
        simp only [List.lookup, hbeq]
        simp [hxk.trans hkt]
      · have hbeq : (x == k) = false := beq_false_of_ne hxk
        simp only [List.lookup, hbeq]
        exact ih
    · rw [if_neg hkt]
      by_cases hxk : x = k
      · have hbeq : (x == k) = true := by rw [beq_iff_eq]; exact hxk
        simp only [List.lookup, hbeq]
        have hxt : x ≠ t := by rw [hxk]; exact hkt
        simp [hxt]
      · have hbeq : (x == k) = false := beq_false_of_ne hxk
        simp only [List.lookup, hbeq]
        exact ih

lemma keyCount_bump (acc : List (String × Nat)) (t x : String) :
    keyCount (bump acc t) x = keyCount acc x + (if x = t then 1 else 0) := by
  unfold keyCount bump
  split
  next hmem =>
    rw [lookup_map_update]
    by_cases hxt : x = t
    · subst hxt
      obtain ⟨v, hv⟩ := lookup_isSome acc x hmem
      simp [hv]
    · cases hl : acc.lookup x <;> simp [hxt, hl]
  next hmem =>
    rw [lookup_append]
    by_cases hxt : x = t
    · subst hxt
      rw [lookup_none acc x hmem]
      simp [List.lookup]
    · have hbeq : (x == t) = false := beq_false_of_ne hxt
      simp [List.lookup, hbeq, hxt]

lemma tally_fold (l : List String) :
    ∀ acc, (acc.map Prod.fst).Nodup →
      ((l.foldl bump acc).map Prod.fst).Nodup ∧
      (∀ x, x ∈ (l.foldl bump acc).map Prod.fst ↔ x ∈ acc.map Prod.fst ∨ x ∈ l) ∧
      (∀ x, keyCount (l.foldl bump acc) x = keyCount acc x + l.count x) := by
  induction l with
  | nil =>
    intro acc h
    refine ⟨h, fun x => by simp, fun x => by simp⟩
  | cons a r ih =>
    intro acc h
    simp only [List.foldl_cons]
    obtain ⟨h1, h2, h3⟩ := ih (bump acc a) (bump_keys_nodup acc a h)
    refine ⟨h1, ?_, ?_⟩
    · intro x
      rw [h2 x, bump_keys_mem]
      simp only [List.mem_cons]
      tauto
    · intro x
      rw [h3 x, keyCount_bump acc a x]
      by_cases hxa : x = a
      · subst hxa
        rw [List.count_cons_self]
        simp
        omega
      · rw [List.count_cons_of_ne hxa]
        simp [hxa]

lemma mem_lookup_eq (l : List (String × Nat)) (h : (l.map Prod.fst).Nodup)
    (p : String × Nat) (hp : p ∈ l) : l.lookup p.1 = some p.2 := by
  induction l with
  | nil => simp at hp
  | cons q r ih =>
    obtain ⟨k, v⟩ := q
    simp only [List.map_cons, List.nodup_cons] at h
    rcases List.mem_cons.mp hp with rfl | hmem
    · simp [List.lookup]
    · have hne : p.1 ≠ k := by
        intro he
        exact h.1 (he ▸ List.mem_map_of_mem Prod.fst hmem)
      have hbeq : (p.1 == k) = false := beq_false_of_ne hne
      simp only [List.lookup, hbeq]
      exact ih h.2 hmem

lemma tally_spec (l : List String) :
    ((tally l).map Prod.fst).Nodup ∧
    (∀ x, x ∈ (tally l).map Prod.fst ↔ x ∈ l) ∧
    (∀ p ∈ tally l, p.2 = l.count p.1) := by
  obtain ⟨h1, h2, h3⟩ := tally_fold l [] (by simp)
  refine ⟨h1, fun x => by simpa using h2 x, fun p hp => ?_⟩
  have hl := mem_lookup_eq (tally l) h1 p hp
  have hkc := h3 p.1
  unfold keyCount at hkc
  unfold tally at hl
  rw [hl] at hkc
  simpa [List.lookup] using hkc

/-- C6: getTaskFrequency returns entries whose counts are the total
occurrence numbers of their task names across all completedTasks lists
of all records, sorted by count descending and truncated to the first
limit entries; the records with task lists A,B then A then B,B at
limit 2 yield B with 3 occurrences and A with 2. -/
theorem getTaskFrequency_spec (days : List DayRecord) (limit : Nat) :
    (∀ p ∈ getTaskFrequency days limit,
      p.2 = ((days.map (·.completedTasks)).flatten).count p.1) ∧
    List.Sorted freqRel (getTaskFrequency days limit) ∧
    (getTaskFrequency days limit).length =
      min limit ((days.map (·.completedTasks)).flatten).toFinset.card ∧
    getTaskFrequency
      [⟨1, ["A", "B"], 2, ""⟩, ⟨2, ["A"], 1, ""⟩, ⟨3, ["B", "B"], 2, ""⟩] 2 =
      [("B", 3), ("A", 2)] := by
  obtain ⟨h1, h2, h3⟩ := tally_spec ((days.map (·.completedTasks)).flatten)
  refine ⟨?_, ?_, ?_, by decide⟩
  · intro p hp
    have hp2 : p ∈ List.insertionSort freqRel
        (tally ((days.map (·.completedTasks)).flatten)) :=
      List.mem_of_mem_take hp
    have hp3 : p ∈ tally ((days.map (·.completedTasks)).flatten) :=
      (List.mem_insertionSort freqRel).mp hp2
    exact h3 p hp3
  · exact (List.sorted_insertionSort freqRel _).sublist (List.take_sublist _ _)
  · unfold getTaskFrequency
    rw [List.length_take, List.length_insertionSort]
    congr 1
    have hkeys : ((tally ((days.map (·.completedTasks)).flatten)).map Prod.fst).toFinset =
        ((days.map (·.completedTasks)).flatten).toFinset := by
      apply Finset.ext
      intro x
      simp only [List.mem_toFinset]
      exact h2 x
    rw [← hkeys, List.toFinset_card_of_nodup h1, List.length_map]

/-- C7: the analytics response computed by the data route is a pure
function of the record snapshot and the clock date: two environments
agreeing on the clock produce identical responses for every snapshot,
regardless of the state of the random source. -/
theorem dataResponse_deterministic (e1 e2 : Env) (days : List DayRecord)
    (h : e1.clock = e2.clock) :
    dataResponse e1 days = dataResponse e2 days := by
  unfold dataResponse
  rw [h]

theorem dataResponse_deterministic_witness :
    dataResponse ⟨100, 0⟩ [] = dataResponse ⟨100, 1 / 2⟩ [] :=
  dataResponse_deterministic ⟨100, 0⟩ ⟨100, 1 / 2⟩ [] rfl

theorem getLongestStreak_spec_witness :
    getLongestStreak [⟨5, [], 1, ""⟩, ⟨6, [], 1, ""⟩] =
      specLongestStreak
        (([⟨5, [], 1, ""⟩, ⟨6, [], 1, ""⟩] : List DayRecord).map (·.date)).toFinset ∧
    getLongestStreak [] = 0 ∧
    (∀ d1 : DayRecord, getLongestStreak [d1] = 1) ∧
    getLongestStreak
      [⟨toDayNumber 2024 1 1, [], 1, ""⟩, ⟨toDayNumber 2024 1 2, [], 1, ""⟩,
       ⟨toDayNumber 2024 1 3, [], 1, ""⟩, ⟨toDayNumber 2024 1 10, [], 1, ""⟩] = 3 :=
  getLongestStreak_spec [⟨5, [], 1, ""⟩, ⟨6, [], 1, ""⟩] (by decide)

theorem getTaskFrequency_spec_witness :
    List.Sorted freqRel (getTaskFrequency
      [⟨1, ["A", "B"], 2, ""⟩, ⟨2, ["A"], 1, ""⟩, ⟨3, ["B", "B"], 2, ""⟩] 2) ∧
    getTaskFrequency
      [⟨1, ["A", "B"], 2, ""⟩, ⟨2, ["A"], 1, ""⟩, ⟨3, ["B", "B"], 2, ""⟩] 2 =
      [("B", 3), ("A", 2)] :=
  ⟨(getTaskFrequency_spec
      [⟨1, ["A", "B"], 2, ""⟩, ⟨2, ["A"], 1, ""⟩, ⟨3, ["B", "B"], 2, ""⟩] 2).2.1,
   (getTaskFrequency_spec
      [⟨1, ["A", "B"], 2, ""⟩, ⟨2, ["A"], 1, ""⟩, ⟨3, ["B", "B"], 2, ""⟩] 2).2.2.2⟩
